import Mathlib

/-!
Shallow embedding of the `ixa-indexing` repository (secondary indexing:
typed / type-erased content-hash-keyed indices plus the canonical ordering
protocol for multi-property indices), together with theorems settling the
specification claims.

Conventions of the embedding:
* Rust `u64` / `u128` values are `Nat` with explicit `% 2^64` / `% 2^128`
  where truncation happens in the source (`as u64` casts).
* `HashSet<EntityId>` is `Finset Nat`; `HashSet::insert` returns `true`
  exactly when the element was newly added, which we render as
  `decide (id ∉ s)`.
* `hashbrown::HashTable` is a list of entries.  The table's `find(h64, eq)`
  inspects only the bucket for the 64-bit placement key `h64`, but in this
  code every entry's placement key is the low 64 bits of the same 128-bit
  digest that the `eq` predicates compare, so an entry satisfies `eq` only
  if it lives in the probed bucket; `find` is therefore `List.find?` with
  the `eq` predicate.  `entry(...).or_insert_with(...)` updates the found
  entry in place or materialises a fresh entry, and `insert_unique`
  unconditionally adds a new entry without any duplicate check.
* The XXH3-128 finalization is an abstract parameter `core`; the `Hash`
  implementation of a value type is an abstract byte serialisation
  `hashBytes`.  The 128-bit one-shot digest of values of type `α` is then
  an arbitrary function `f : α → Nat` wherever only its determinism
  matters.
-/

namespace IxaIndexing

/-- `EntityId` (`PersonId`): an externally owned 64-bit identifier. -/
abbrev EntityId := Nat

/-! ### `hash128.rs` -/

/-- The streaming hasher `Xxh3Hasher128`: its state is the sequence of
bytes written so far (the real state is an XXH3 accumulator, which is a
function of exactly this byte sequence). -/
structure Xxh3Hasher128 where
  state : List Nat

/-- `Default::default()`: a fresh hasher with nothing written. -/
def Xxh3Hasher128.empty : Xxh3Hasher128 := ⟨[]⟩

/-- `Hasher::write`: stream bytes into the state. -/
def Xxh3Hasher128.write (h : Xxh3Hasher128) (bytes : List Nat) : Xxh3Hasher128 :=
  ⟨h.state ++ bytes⟩

/-- `Hasher::finish`: `self.0.finish_128() as u64`.  `core` is the XXH3
128-bit finalization (a `u128`, hence the `% 2^128`); the `as u64` cast
keeps the low 64 bits. -/
def Xxh3Hasher128.finish (core : List Nat → Nat) (h : Xxh3Hasher128) : Nat :=
  (core h.state % 2 ^ 128) % 2 ^ 64

/-- `finish_u128`: the full 128-bit digest. -/
def Xxh3Hasher128.finish_u128 (core : List Nat → Nat) (h : Xxh3Hasher128) : Nat :=
  core h.state % 2 ^ 128

/-- `one_shot_128`: hash the value's byte representation into a fresh
hasher and take the 128-bit digest. -/
def one_shot_128 {α : Type} (core : List Nat → Nat) (hashBytes : α → List Nat) (v : α) : Nat :=
  (Xxh3Hasher128.empty.write (hashBytes v)).finish_u128 core

/-- `one_shot_64`: hash the value's byte representation into a fresh
hasher and take the 64-bit result of `Hasher::finish`. -/
def one_shot_64 {α : Type} (core : List Nat → Nat) (hashBytes : α → List Nat) (v : α) : Nat :=
  (Xxh3Hasher128.empty.write (hashBytes v)).finish core

/-! ### `typed_index.rs` — the typed index `Index<T>`

All operations first compute `hash = one_shot_128(key)`.  Below, the
already-composed one-shot digest function is the parameter
`f : α → Nat`. -/

/-- The typed index `Index<T>`: a hash table of
`(stored value, entity set)` entries. -/
structure TypedIndex (α : Type) where
  lookup : List (α × Finset EntityId)

/-- `Index::new()`. -/
def TypedIndex.new {α : Type} : TypedIndex α := ⟨[]⟩

/-- List-level body of `insert_entity`: walk the table in search of the
first entry whose stored value has 128-bit digest `hash`
(the `hash128_equality` closure); if found, insert `id` into its set and
return whether it was newly added; otherwise materialise
`(key.clone(), {id})` as a fresh entry (the `or_insert_with` branch,
followed by the `.insert(entity_id)` on the fresh empty set). -/
def insertEntityList {α : Type} (f : α → Nat) (hash : Nat) (key : α) (id : EntityId) :
    List (α × Finset EntityId) → Bool × List (α × Finset EntityId)
  | [] => (true, [(key, {id})])
  | e :: rest =>
    if f e.1 = hash then
      (decide (id ∉ e.2), (e.1, insert id e.2) :: rest)
    else
      let r := insertEntityList f hash key id rest
      (r.1, e :: r.2)

/-- `Index::insert_entity(key, entity_id)`: returns the `bool` from
`HashSet::insert` together with the updated index. -/
def TypedIndex.insert_entity {α : Type} (f : α → Nat) (idx : TypedIndex α) (key : α)
    (id : EntityId) : Bool × TypedIndex α :=
  let r := insertEntityList f (f key) key id idx.lookup
  (r.1, ⟨r.2⟩)

/-- `Index::insert_value(key, set)`: `HashTable::insert_unique` — adds the
entry unconditionally, with no duplicate check and no failure path. -/
def TypedIndex.insert_value {α : Type} (f : α → Nat) (idx : TypedIndex α) (key : α)
    (set : Finset EntityId) : TypedIndex α :=
  ⟨idx.lookup ++ [(key, set)]⟩

/-- `TypeErasedIndex::get_with_hash` for `Index<T>`: find the first entry
whose stored value's 128-bit digest equals `hash` and return its set. -/
def TypedIndex.get_with_hash {α : Type} (f : α → Nat) (idx : TypedIndex α) (hash : Nat) :
    Option (Finset EntityId) :=
  (idx.lookup.find? fun e => f e.1 = hash).map (·.2)

/-- `Index::get(key)`: hash the key, then look up by hash. -/
def TypedIndex.get {α : Type} (f : α → Nat) (idx : TypedIndex α) (key : α) :
    Option (Finset EntityId) :=
  idx.get_with_hash f (f key)

/-- `Index::has_key(key)`. -/
def TypedIndex.has_key {α : Type} (f : α → Nat) (idx : TypedIndex α) (key : α) : Bool :=
  (idx.get f key).isSome

/-- `TypeErasedIndex::has_hash` for `Index<T>`. -/
def TypedIndex.has_hash {α : Type} (f : α → Nat) (idx : TypedIndex α) (hash : Nat) : Bool :=
  (idx.get_with_hash f hash).isSome

/-- List-level body of `insert_entity_with_hash`: find the first entry
whose stored value's digest equals `hash`; `none` models `Err(())`. -/
def insertEntityWithHashList {α : Type} (f : α → Nat) (hash : Nat) (id : EntityId) :
    List (α × Finset EntityId) → Option (Bool × List (α × Finset EntityId))
  | [] => none
  | e :: rest =>
    if f e.1 = hash then
      some (decide (id ∉ e.2), (e.1, insert id e.2) :: rest)
    else
      match insertEntityWithHashList f hash id rest with
      | some r => some (r.1, e :: r.2)
      | none => none

/-- `TypeErasedIndex::insert_entity_with_hash` for `Index<T>`: inserts
into an existing entry's set only; `Except.error ()` models `Err(())`. -/
def TypedIndex.insert_entity_with_hash {α : Type} (f : α → Nat) (idx : TypedIndex α)
    (hash : Nat) (id : EntityId) : Except Unit (Bool × TypedIndex α) :=
  match insertEntityWithHashList f hash id idx.lookup with
  | some r => .ok (r.1, ⟨r.2⟩)
  | none => .error ()

/-- List-level body of a mutation through `get_mut` /
`get_with_hash_mut`: the returned `&mut HashSet` only lets the caller
replace the found entry's set; the stored value is untouched. -/
def setUpdateList {α : Type} (f : α → Nat) (hash : Nat) (s : Finset EntityId) :
    List (α × Finset EntityId) → List (α × Finset EntityId)
  | [] => []
  | e :: rest =>
    if f e.1 = hash then (e.1, s) :: rest
    else e :: setUpdateList f hash s rest

/-- A mutation performed through `Index::get_mut` /
`TypeErasedIndex::get_with_hash_mut`: overwrite the set of the entry found
for `hash`, if any. -/
def TypedIndex.set_update {α : Type} (f : α → Nat) (idx : TypedIndex α) (hash : Nat)
    (s : Finset EntityId) : TypedIndex α :=
  ⟨setUpdateList f hash s idx.lookup⟩

/-! ### `type_erased_index.rs` — the fully type-erased `Index`

Entries store the 128-bit hash itself next to the set; no value copy. -/

/-- The completely type-erased index: `HashTable<(u128, HashSet<EntityId>)>`. -/
structure ErasedIndex where
  lookup : List (Nat × Finset EntityId)

/-- `Index::new()`. -/
def ErasedIndex.new : ErasedIndex := ⟨[]⟩

/-- `insert_with_hash(hash, set)`: `insert_unique` — unconditionally adds
the `(hash, set)` entry. -/
def ErasedIndex.insert_with_hash (idx : ErasedIndex) (hash : Nat) (set : Finset EntityId) :
    ErasedIndex :=
  ⟨idx.lookup ++ [(hash, set)]⟩

/-- `insert(key, set)`: hash the key, then `insert_with_hash`. -/
def ErasedIndex.insert {α : Type} (f : α → Nat) (idx : ErasedIndex) (key : α)
    (set : Finset EntityId) : ErasedIndex :=
  idx.insert_with_hash (f key) set

/-- `get_with_hash(hash)`: find the first entry whose stored 128-bit hash
equals `hash`. -/
def ErasedIndex.get_with_hash (idx : ErasedIndex) (hash : Nat) : Option (Finset EntityId) :=
  (idx.lookup.find? fun e => e.1 = hash).map (·.2)

/-- `get(key)`: hash the key, then `get_with_hash`. -/
def ErasedIndex.get {α : Type} (f : α → Nat) (idx : ErasedIndex) (key : α) :
    Option (Finset EntityId) :=
  idx.get_with_hash (f key)

/-! ### Relocation during table resize

`hashbrown` re-places every entry on resize by calling the `hasher`
closure supplied at insertion time.  We model a table together with the
64-bit placement key each entry currently sits under, and a resize as
re-tagging every entry with the closure's result (`as u64` is `% 2^64`).

* the fully type-erased index passes
  `|(stored_hash, _)| *stored_hash as u64` — a projection of the stored
  128-bit digest;
* the typed index passes
  `|(stored_value, _)| one_shot_128(stored_value) as u64` — it recomputes
  the digest of the stored value with the current hash function `f`. -/

/-- A hash table with each entry's current 64-bit placement key made
explicit. -/
abbrev TaggedTable (β : Type) := List (Nat × β)

/-- A resize: every entry is re-placed under the key returned by the
`hasher` closure. -/
def rehash {β : Type} (hasher : β → Nat) (t : TaggedTable β) : TaggedTable β :=
  t.map fun e => (hasher e.2, e.2)

/-- The `hasher` closure of `Index<T>::insert_entity` / `insert_value`:
`one_shot_128(stored_value) as u64`, recomputed from the stored value with
the hash function `f` current at relocation time. -/
def typedRelocationHasher {α : Type} (f : α → Nat) (e : α × Finset EntityId) : Nat :=
  f e.1 % 2 ^ 64

/-- The `hasher` closure of the type-erased `Index::insert_with_hash`:
`*stored_hash as u64`, read off the stored digest; it does not mention any
hash function. -/
def erasedRelocationHasher (e : Nat × Finset EntityId) : Nat :=
  e.1 % 2 ^ 64

/-! ### `ixa-derive/src/lib.rs` — `sorted_tag_value_impl`, the canonical
ordering protocol behind `SortByTag` (`multi_index.rs`)

The proc macro works on a fixed caller-order tuple of tags.  It
1. pairs every tag with its caller-order position (`enumerate`) and
   stably sorts those pairs by the tag's order key
   (`indexed_tags.sort_by_key(|(_, ty)| quote!(#ty).to_string())`);
2. emits `reorder_by_tag`, which at canonical position `j` places the
   value from the caller-order position stored in the `j`-th sorted pair;
3. emits `unreorder_by_tag`, which at caller-order position `i` reads the
   canonical position of tag `i`
   (`sorted_tags.iter().position(|t| t == orig_tags[i])`).

Tags are modelled as elements of a linearly ordered type `K` (the macro's
order key is the tag type's source text, a `String`; UTF-8 byte order
agrees with code-point order, so Rust's `String` order is a linear
order).  A value tuple is a `List α` aligned with the tag list; `d` is a
default returned by out-of-range reads, which the generated code cannot
perform. -/

/-- The macro's comparison on `(caller position, tag)` pairs: by tag
order key. -/
def tagLe {K : Type} [LinearOrder K] (p q : Nat × K) : Bool :=
  decide (p.2 ≤ q.2)

/-- `indexed_tags`: tags paired with caller-order positions, stably
sorted by tag order key. -/
def sortedIndexedTags {K : Type} [LinearOrder K] (tags : List K) : List (Nat × K) :=
  tags.enum.mergeSort tagLe

/-- `SortedTag`: the canonical (sorted) tag order. -/
def sortedTags {K : Type} [LinearOrder K] (tags : List K) : List K :=
  (sortedIndexedTags tags).map (·.2)

/-- The permutation: canonical position `j` ↦ caller-order position of
the `j`-th canonical tag. -/
def tagPermutation {K : Type} [LinearOrder K] (tags : List K) : List Nat :=
  (sortedIndexedTags tags).map (·.1)

/-- `reorder_by_tag`: permute a caller-order value tuple into canonical
tag order. -/
def reorder_by_tag {K : Type} [LinearOrder K] {α : Type} (tags : List K) (values : List α)
    (d : α) : List α :=
  (tagPermutation tags).map fun i => values.getD i d

/-- `unreorder_by_tag`: the inverse — caller-order position `i` reads the
canonical position of its tag, found by scanning `sorted_tags` for the
first tag equal to `orig_tags[i]`. -/
def unreorder_by_tag {K : Type} [LinearOrder K] {α : Type} (tags : List K) (sorted : List α)
    (d : α) : List α :=
  tags.map fun t => sorted.getD ((sortedTags tags).indexOf t) d

/-! ## Helper lemmas -/

theorem insertEntityWithHashList_eq_none {α : Type} (f : α → Nat) (hash : Nat) (id : EntityId)
    (t : List (α × Finset EntityId)) (hmiss : ∀ e ∈ t, f e.1 ≠ hash) :
    insertEntityWithHashList f hash id t = none := by
  induction t with
  | nil => rfl
  | cons e rest ih =>
    simp only [insertEntityWithHashList]
    rw [if_neg (hmiss e (by simp))]
    rw [ih fun x hx => hmiss x (by simp [hx])]

theorem insertEntityList_find?_self {α : Type} (f : α → Nat) (key : α) (id : EntityId)
    (t : List (α × Finset EntityId)) :
    ∃ p, ((insertEntityList f (f key) key id t).2.find? fun e => f e.1 = f key) = some p ∧
      id ∈ p.2 := by
  induction t with
  | nil =>
    refine ⟨(key, {id}), ?_, by simp⟩
    simp [insertEntityList, List.find?]
  | cons e rest ih =>
    by_cases he : f e.1 = f key
    · refine ⟨(e.1, insert id e.2), ?_, by simp⟩
      simp [insertEntityList, if_pos he, List.find?, he]
    · obtain ⟨p, hp, hid⟩ := ih
      refine ⟨p, ?_, hid⟩
      simp only [insertEntityList, if_neg he]
      rw [List.find?_cons_of_neg _ (by simpa using he)]
      exact hp

/-! ## Claim theorems: hashing -/

/-- C10: for every hashable value, the 64-bit one-shot digest is exactly
the 128-bit one-shot digest of the same value reduced modulo `2^64`
(`finish` truncates `finish_128` with an `as u64` cast, and both one-shot
helpers stream the same bytes into a fresh hasher). -/
theorem one_shot_64_truncates_one_shot_128 {α : Type} (core : List Nat → Nat)
    (hashBytes : α → List Nat) (v : α) :
    one_shot_64 core hashBytes v = one_shot_128 core hashBytes v % 2 ^ 64 := rfl

/-! ## Claim theorems: typed index, erased interface -/

/-- C4: `insert_entity_with_hash` on a hash for which no entry exists
fails with the no-such-entry error for every entity id, creates no entry
(it returns no index at all), and `has_hash` stays `false` for that
hash. -/
theorem insert_entity_with_hash_missing_entry {α : Type} (f : α → Nat) (idx : TypedIndex α)
    (h : Nat) (id : EntityId) (hmiss : ∀ e ∈ idx.lookup, f e.1 ≠ h) :
    idx.insert_entity_with_hash f h id = .error () ∧ idx.has_hash f h = false := by
  constructor
  · unfold TypedIndex.insert_entity_with_hash
    rw [insertEntityWithHashList_eq_none f h id idx.lookup hmiss]
  · unfold TypedIndex.has_hash TypedIndex.get_with_hash
    rw [List.find?_eq_none.mpr fun x hx => by simp [hmiss x hx]]
    rfl

/-- Witness for C4 at the empty typed index over `Nat`, hash `0`,
entity `7`. -/
theorem insert_entity_with_hash_missing_entry_witness :
    (∀ e ∈ (TypedIndex.new : TypedIndex Nat).lookup, (fun n : Nat => n) e.1 ≠ 0) ∧
    ((TypedIndex.new : TypedIndex Nat).insert_entity_with_hash (fun n : Nat => n) 0 7 =
        .error () ∧
      (TypedIndex.new : TypedIndex Nat).has_hash (fun n : Nat => n) 0 = false) :=
  ⟨fun e he => by simp [TypedIndex.new] at he,
    insert_entity_with_hash_missing_entry (fun n : Nat => n) TypedIndex.new 0 7
      fun e he => by simp [TypedIndex.new] at he⟩

/-- C5: after the typed `insert_entity(key, id)`, the type-erased
`get_with_hash` at `digest128(key)` on the same index returns a set
containing `id`. -/
theorem insert_entity_get_with_hash_consistent {α : Type} (f : α → Nat) (idx : TypedIndex α)
    (key : α) (id : EntityId) :
    ∃ s, (idx.insert_entity f key id).2.get_with_hash f (f key) = some s ∧ id ∈ s := by
  obtain ⟨p, hp, hid⟩ := insertEntityList_find?_self f key id idx.lookup
  exact ⟨p.2, by simp [TypedIndex.insert_entity, TypedIndex.get_with_hash, hp], hid⟩

/-! ## Claim theorems: fully type-erased index -/

/-- C9: on the fully type-erased index, if no stored entry carries hash
`h`, then `get_with_hash h` returns `none`, and after
`insert_with_hash h s` it returns exactly the inserted set `s`. -/
theorem erased_insert_get_roundtrip (idx : ErasedIndex) (h : Nat) (s : Finset EntityId)
    (hmiss : ∀ e ∈ idx.lookup, e.1 ≠ h) :
    idx.get_with_hash h = none ∧ (idx.insert_with_hash h s).get_with_hash h = some s := by
  have hnone : (idx.lookup.find? fun e => e.1 = h) = none :=
    List.find?_eq_none.mpr fun x hx => by simp [hmiss x hx]
  constructor
  · simp [ErasedIndex.get_with_hash, hnone]
  · simp [ErasedIndex.get_with_hash, ErasedIndex.insert_with_hash, List.find?_append, hnone,
      List.find?]

/-- Witness for C9 at the empty erased index, hash `3`, set `{1, 2}`. -/
theorem erased_insert_get_roundtrip_witness :
    (∀ e ∈ ErasedIndex.new.lookup, e.1 ≠ 3) ∧
    (ErasedIndex.new.get_with_hash 3 = none ∧
      (ErasedIndex.new.insert_with_hash 3 {1, 2}).get_with_hash 3 = some {1, 2}) :=
  ⟨fun e he => by simp [ErasedIndex.new] at he,
    erased_insert_get_roundtrip ErasedIndex.new 3 {1, 2}
      fun e he => by simp [ErasedIndex.new] at he⟩

/-! ## Claim theorems: insertion idempotence (C3) -/

theorem insertEntityList_fst_true {α : Type} (f : α → Nat) (key : α) (id : EntityId)
    (t : List (α × Finset EntityId))
    (hfresh : ∀ p, (t.find? fun e => f e.1 = f key) = some p → id ∉ p.2) :
    (insertEntityList f (f key) key id t).1 = true := by
  induction t with
  | nil => rfl
  | cons e rest ih =>
    by_cases he : f e.1 = f key
    · have : id ∉ e.2 := hfresh e (by rw [List.find?_cons_of_pos _ (by simpa using he)])
      simp [insertEntityList, if_pos he, this]
    · simp only [insertEntityList, if_neg he]
      exact ih fun p hp => hfresh p (by rw [List.find?_cons_of_neg _ (by simpa using he)]; exact hp)

theorem insertEntityList_repeat {α : Type} (f : α → Nat) (key : α) (id : EntityId)
    (t : List (α × Finset EntityId)) :
    insertEntityList f (f key) key id (insertEntityList f (f key) key id t).2 =
      (false, (insertEntityList f (f key) key id t).2) := by
  induction t with
  | nil =>
    simp [insertEntityList, Finset.insert_eq_self.mpr (Finset.mem_insert_self id ∅)]
  | cons e rest ih =>
    by_cases he : f e.1 = f key
    · simp [insertEntityList, if_pos he, Finset.insert_idem, Finset.mem_insert_self]
    · simp only [insertEntityList, if_neg he]
      rw [ih]

/-- C3 counterexample: the claim quantifies over *every* typed index, but
on an index where `id` is already a member of the set stored for `key`
(here: reached by one prior `insert_entity(0, 5)` from `new`), the first
of the two calls already returns `false`, not `true`. -/
theorem insert_entity_first_call_not_always_true :
    ((TypedIndex.new.insert_entity (fun n : Nat => n) 0 5).2.insert_entity
        (fun n : Nat => n) 0 5).1 = false := by
  decide

/-- C3 (amended): provided `id` is not already in the set stored for
`key` (in particular on any index not yet holding `(key, id)`), calling
`insert_entity(key, id)` twice returns `true` then `false`, and the whole
index — hence the entity set for `key`, its size and members — after both
calls equals the index after the first call alone.  The second call
returns `false` and leaves the index unchanged even without the
proviso. -/
theorem insert_entity_twice_spec {α : Type} (f : α → Nat) (idx : TypedIndex α) (key : α)
    (id : EntityId) (hfresh : ∀ s, idx.get f key = some s → id ∉ s) :
    (idx.insert_entity f key id).1 = true ∧
    ((idx.insert_entity f key id).2.insert_entity f key id).1 = false ∧
    ((idx.insert_entity f key id).2.insert_entity f key id).2 =
      (idx.insert_entity f key id).2 := by
  simp only [TypedIndex.insert_entity]
  refine ⟨?_, ?_, ?_⟩
  · apply insertEntityList_fst_true
    intro p hp
    exact hfresh p.2 (by simp [TypedIndex.get, TypedIndex.get_with_hash, hp])
  · rw [insertEntityList_repeat]
  · rw [insertEntityList_repeat]

/-- Witness for C3 (amended) at the empty typed index over `Nat`,
key `0`, entity `5`. -/
theorem insert_entity_twice_spec_witness :
    (∀ s, (TypedIndex.new : TypedIndex Nat).get (fun n : Nat => n) 0 = some s → 5 ∉ s) ∧
    ((TypedIndex.new.insert_entity (fun n : Nat => n) 0 5).1 = true ∧
      ((TypedIndex.new.insert_entity (fun n : Nat => n) 0 5).2.insert_entity
          (fun n : Nat => n) 0 5).1 = false ∧
      ((TypedIndex.new.insert_entity (fun n : Nat => n) 0 5).2.insert_entity
          (fun n : Nat => n) 0 5).2 = (TypedIndex.new.insert_entity (fun n : Nat => n) 0 5).2) :=
  ⟨fun s hs => by simp [TypedIndex.get, TypedIndex.get_with_hash, TypedIndex.new,
      List.find?] at hs,
    insert_entity_twice_spec (fun n : Nat => n) TypedIndex.new 0 5
      fun s hs => by simp [TypedIndex.get, TypedIndex.get_with_hash, TypedIndex.new,
        List.find?] at hs⟩

/-! ## Claim theorems: `insert_value` on a duplicate digest (C6) -/

/-- C6 counterexample: `insert_value` is built on
`HashTable::insert_unique`, which performs no duplicate check and has no
failure path.  On an index already holding an entry of digest
`digest128(0) = 0`, `insert_value(0, ∅)` succeeds and duplicates the
digest: the table afterwards holds two entries with equal digest instead
of reporting a `DuplicateKey` error. -/
theorem insert_value_duplicate_digest_succeeds :
    (TypedIndex.insert_value (fun n : Nat => n) ⟨[(0, {5})]⟩ 0 ∅).lookup =
      [(0, {5}), (0, ∅)] ∧
    ¬ (TypedIndex.insert_value (fun n : Nat => n) ⟨[(0, {5})]⟩ 0 ∅).lookup.Pairwise
        (fun e e' => (fun n : Nat => n) e.1 ≠ (fun n : Nat => n) e'.1) := by
  constructor
  · rfl
  · decide

/-- C6 (amended): `insert_value(key, set)` never fails and performs no
duplicate check: it unconditionally appends a fresh `(key, set)` entry.
When an entry with digest `digest128(key)` already exists, the existing
entry is left unmodified (and still shadows the new one: `get key` is
unchanged), but the table now violates the one-entry-per-digest
invariant. -/
theorem insert_value_existing_digest_appends {α : Type} (f : α → Nat) (idx : TypedIndex α)
    (key : α) (s : Finset EntityId) (hdup : ∃ e ∈ idx.lookup, f e.1 = f key) :
    (idx.insert_value f key s).lookup = idx.lookup ++ [(key, s)] ∧
    (idx.insert_value f key s).get f key = idx.get f key ∧
    ¬ (idx.insert_value f key s).lookup.Pairwise fun e e' => f e.1 ≠ f e'.1 := by
  obtain ⟨e, he, hdig⟩ := hdup
  refine ⟨rfl, ?_, ?_⟩
  · have hsome : (idx.lookup.find? fun p => f p.1 = f key).isSome :=
      List.find?_isSome.mpr ⟨e, he, by simpa using hdig⟩
    obtain ⟨p, hp⟩ := Option.isSome_iff_exists.mp hsome
    simp [TypedIndex.get, TypedIndex.get_with_hash, TypedIndex.insert_value,
      List.find?_append, hp]
  · intro hpair
    exact (List.pairwise_append.mp hpair).2.2 e he (key, s) (by simp) hdig

/-- Witness for C6 (amended) at an index over `Nat` holding one entry of
digest `0`, with `key = 0`, `set = ∅`. -/
theorem insert_value_existing_digest_appends_witness :
    (∃ e ∈ (⟨[(0, {5})]⟩ : TypedIndex Nat).lookup,
      (fun n : Nat => n) e.1 = (fun n : Nat => n) 0) ∧
    ((TypedIndex.insert_value (fun n : Nat => n) ⟨[(0, {5})]⟩ 0 ∅).lookup =
        (⟨[(0, {5})]⟩ : TypedIndex Nat).lookup ++ [(0, ∅)] ∧
      (TypedIndex.insert_value (fun n : Nat => n) ⟨[(0, {5})]⟩ 0 ∅).get (fun n : Nat => n) 0 =
        (⟨[(0, {5})]⟩ : TypedIndex Nat).get (fun n : Nat => n) 0 ∧
      ¬ (TypedIndex.insert_value (fun n : Nat => n) ⟨[(0, {5})]⟩ 0 ∅).lookup.Pairwise
          fun e e' => (fun n : Nat => n) e.1 ≠ (fun n : Nat => n) e'.1) :=
  ⟨⟨(0, {5}), by simp, rfl⟩,
    insert_value_existing_digest_appends (fun n : Nat => n) ⟨[(0, {5})]⟩ 0 ∅
      ⟨(0, {5}), by simp, rfl⟩⟩

/-! ## Claim theorems: the one-entry-per-digest invariant (C7) -/

/-- At most one entry per distinct 128-bit digest. -/
def DistinctDigests {α : Type} (f : α → Nat) (idx : TypedIndex α) : Prop :=
  idx.lookup.Pairwise fun e e' => f e.1 ≠ f e'.1

/-- Indices reachable by the public operations, `insert_value`
included. -/
inductive Reachable {α : Type} (f : α → Nat) : TypedIndex α → Prop
  | new : Reachable f TypedIndex.new
  | insert_entity (idx : TypedIndex α) (key : α) (id : EntityId) :
      Reachable f idx → Reachable f (idx.insert_entity f key id).2
  | insert_value (idx : TypedIndex α) (key : α) (s : Finset EntityId) :
      Reachable f idx → Reachable f (idx.insert_value f key s)
  | insert_entity_with_hash (idx : TypedIndex α) (h : Nat) (id : EntityId) (b : Bool)
      (idx' : TypedIndex α) : Reachable f idx →
      idx.insert_entity_with_hash f h id = .ok (b, idx') → Reachable f idx'
  | set_update (idx : TypedIndex α) (h : Nat) (s : Finset EntityId) :
      Reachable f idx → Reachable f (idx.set_update f h s)

/-- Indices reachable by the public operations other than
`insert_value`. -/
inductive SafeReachable {α : Type} (f : α → Nat) : TypedIndex α → Prop
  | new : SafeReachable f TypedIndex.new
  | insert_entity (idx : TypedIndex α) (key : α) (id : EntityId) :
      SafeReachable f idx → SafeReachable f (idx.insert_entity f key id).2
  | insert_entity_with_hash (idx : TypedIndex α) (h : Nat) (id : EntityId) (b : Bool)
      (idx' : TypedIndex α) : SafeReachable f idx →
      idx.insert_entity_with_hash f h id = .ok (b, idx') → SafeReachable f idx'
  | set_update (idx : TypedIndex α) (h : Nat) (s : Finset EntityId) :
      SafeReachable f idx → SafeReachable f (idx.set_update f h s)

theorem insertEntityList_map_fst {α : Type} (f : α → Nat) (hash : Nat) (key : α)
    (id : EntityId) (t : List (α × Finset EntityId)) :
    ((insertEntityList f hash key id t).2.map Prod.fst = t.map Prod.fst) ∨
    ((insertEntityList f hash key id t).2.map Prod.fst = t.map Prod.fst ++ [key] ∧
      ∀ e ∈ t, f e.1 ≠ hash) := by
  induction t with
  | nil => exact Or.inr ⟨rfl, by simp⟩
  | cons e rest ih =>
    by_cases he : f e.1 = hash
    · exact Or.inl (by simp [insertEntityList, if_pos he])
    · rcases ih with heq | ⟨heq, hnot⟩
      · exact Or.inl (by simp [insertEntityList, if_neg he, heq])
      · refine Or.inr ⟨by simp [insertEntityList, if_neg he, heq], ?_⟩
        intro x hx
        rcases List.mem_cons.mp hx with hx | hx
        · simpa [hx] using he
        · exact hnot x hx

theorem insertEntityWithHashList_map_fst {α : Type} (f : α → Nat) (hash : Nat)
    (id : EntityId) (t : List (α × Finset EntityId)) (r : Bool × List (α × Finset EntityId))
    (h : insertEntityWithHashList f hash id t = some r) :
    r.2.map Prod.fst = t.map Prod.fst := by
  induction t generalizing r with
  | nil => exact absurd h (by simp [insertEntityWithHashList])
  | cons e rest ih =>
    by_cases he : f e.1 = hash
    · simp only [insertEntityWithHashList, if_pos he] at h
      cases h
      simp
    · simp only [insertEntityWithHashList, if_neg he] at h
      cases hr : insertEntityWithHashList f hash id rest with
      | none => rw [hr] at h; cases h
      | some r' =>
        rw [hr] at h
        cases h
        simp [ih r' hr]

theorem setUpdateList_map_fst {α : Type} (f : α → Nat) (hash : Nat) (s : Finset EntityId)
    (t : List (α × Finset EntityId)) :
    (setUpdateList f hash s t).map Prod.fst = t.map Prod.fst := by
  induction t with
  | nil => rfl
  | cons e rest ih =>
    by_cases he : f e.1 = hash
    · simp [setUpdateList, if_pos he]
    · simp [setUpdateList, if_neg he, ih]

theorem distinctDigests_of_map_fst {α : Type} (f : α → Nat)
    (l l' : List (α × Finset EntityId)) (heq : l'.map Prod.fst = l.map Prod.fst)
    (h : l.Pairwise fun e e' => f e.1 ≠ f e'.1) :
    l'.Pairwise fun e e' => f e.1 ≠ f e'.1 := by
  rw [← List.pairwise_map (R := fun a b => f a ≠ f b)] at h ⊢
  rw [heq]
  exact h

/-- C7 counterexample: the index holding two entries of equal digest `0`
is reachable from `new` by two public `insert_value` calls, so the
one-entry-per-digest invariant does not hold for all indices reachable by
the public operations. -/
theorem reachable_with_duplicate_digest :
    Reachable (fun n : Nat => n) ⟨[(0, ∅), (0, ∅)]⟩ ∧
    ¬ DistinctDigests (fun n : Nat => n) ⟨[(0, ∅), (0, ∅)]⟩ := by
  constructor
  · exact Reachable.insert_value _ 0 ∅ (Reachable.insert_value _ 0 ∅ Reachable.new)
  · intro h
    simp only [DistinctDigests] at h
    exact (List.pairwise_cons.mp h).1 (0, ∅) (by simp) rfl

/-- C7 (amended): any index reachable by the public operations *other
than* `insert_value` (i.e. `new`, `insert_entity`, `get`, `get_mut`,
`has_key`, and the type-erased operations, mutations through the returned
references included) holds at most one entry per distinct 128-bit digest;
`insert_value` is excluded because it appends without a duplicate
check. -/
theorem safe_reachable_distinct_digests {α : Type} (f : α → Nat) (idx : TypedIndex α)
    (h : SafeReachable f idx) : DistinctDigests f idx := by
  induction h with
  | new => simp [DistinctDigests, TypedIndex.new]
  | insert_entity idx key id _ ih =>
    rcases insertEntityList_map_fst f (f key) key id idx.lookup with heq | ⟨heq, hnot⟩
    · exact distinctDigests_of_map_fst f idx.lookup _ heq ih
    · show List.Pairwise _ _
      rw [← List.pairwise_map (R := fun a b => f a ≠ f b)]
      show ((insertEntityList f (f key) key id idx.lookup).2.map Prod.fst).Pairwise _
      rw [heq, List.pairwise_append]
      refine ⟨(List.pairwise_map (R := fun a b => f a ≠ f b)).mpr ih, by simp, ?_⟩
      intro a ha b hb
      obtain ⟨e, he, rfl⟩ := List.mem_map.mp ha
      rw [List.mem_singleton.mp hb]
      exact hnot e he
  | insert_entity_with_hash idx h id b idx' _ heq ih =>
    have : insertEntityWithHashList f h id idx.lookup = some (b, idx'.lookup) := by
      revert heq
      unfold TypedIndex.insert_entity_with_hash
      cases hr : insertEntityWithHashList f h id idx.lookup with
      | none => intro heq; cases heq
      | some r => intro heq; cases heq; rfl
    exact distinctDigests_of_map_fst f idx.lookup _
      (insertEntityWithHashList_map_fst f h id idx.lookup _ this) ih
  | set_update idx h s _ ih =>
    exact distinctDigests_of_map_fst f idx.lookup _ (setUpdateList_map_fst f h s idx.lookup) ih

/-- Witness for C7 (amended): the index reached from `new` by one
`insert_entity` has pairwise-distinct digests. -/
theorem safe_reachable_distinct_digests_witness :
    DistinctDigests (fun n : Nat => n)
      ((TypedIndex.new.insert_entity (fun n : Nat => n) 0 5).2) :=
  safe_reachable_distinct_digests (fun n : Nat => n) _
    (SafeReachable.insert_entity _ 0 5 SafeReachable.new)

/-! ## Claim theorems: relocation on resize (C8) -/

/-- C8 counterexample: the typed index's relocation `hasher` closure is
`one_shot_128(stored_value) as u64` — it *recomputes* the digest of the
stored value with the digest function in effect at relocation time, so
its output depends on that function, which a key computed from an
already-stored digest could not: the same stored entry relocates to key
`0` under one digest function and to key `1` under another. -/
theorem typed_relocation_hasher_recomputes :
    typedRelocationHasher (fun _ : Nat => 0) (0, (∅ : Finset EntityId)) ≠
      typedRelocationHasher (fun _ : Nat => 1) (0, (∅ : Finset EntityId)) := by
  decide

/-- C8 (amended): the fully type-erased index relocates entries by the
placement key read off the already-stored digest, while the typed index
relocates by recomputing the digest of the stored value; since the same
deterministic digest function `f` is used at insertion and relocation, in
both tables every entry whose current placement key is the canonical one
(the low 64 bits of its digest, as every insertion sets it) is re-placed
under the same key, and a resize leaves the stored entries — hence which
entries are considered equal — unchanged. -/
theorem rehash_fixes_canonical_tables {α : Type} (f : α → Nat)
    (t : TaggedTable (α × Finset EntityId)) (u : TaggedTable (Nat × Finset EntityId))
    (ht : ∀ e ∈ t, e.1 = typedRelocationHasher f e.2)
    (hu : ∀ e ∈ u, e.1 = erasedRelocationHasher e.2) :
    rehash (typedRelocationHasher f) t = t ∧ rehash erasedRelocationHasher u = u := by
  constructor
  · have h1 : t.map (fun e => (typedRelocationHasher f e.2, e.2)) = t.map (fun e => e) :=
      List.map_congr_left fun e he => by rw [← ht e he]
    simpa [rehash] using h1
  · have h2 : u.map (fun e => (erasedRelocationHasher e.2, e.2)) = u.map (fun e => e) :=
      List.map_congr_left fun e he => by rw [← hu e he]
    simpa [rehash] using h2

/-- Witness for C8 (amended) on one-entry tables with canonical
placement keys. -/
theorem rehash_fixes_canonical_tables_witness :
    (∀ e ∈ [((0 : Nat), ((0 : Nat), (∅ : Finset EntityId)))],
      e.1 = typedRelocationHasher (fun n : Nat => n) e.2) ∧
    (∀ e ∈ [((5 : Nat), ((5 : Nat), (∅ : Finset EntityId)))],
      e.1 = erasedRelocationHasher e.2) ∧
    (rehash (typedRelocationHasher (fun n : Nat => n))
        [((0 : Nat), ((0 : Nat), (∅ : Finset EntityId)))] = [(0, (0, ∅))] ∧
      rehash erasedRelocationHasher [((5 : Nat), ((5 : Nat), (∅ : Finset EntityId)))] =
        [(5, (5, ∅))]) :=
  ⟨by decide, by decide,
    rehash_fixes_canonical_tables (fun n : Nat => n) _ _ (by decide) (by decide)⟩

/-! ## Claim theorems: canonical ordering round trip (C1) -/

theorem sortedIndexedTags_perm {K : Type} [LinearOrder K] (tags : List K) :
    List.Perm (sortedIndexedTags tags) tags.enum :=
  List.mergeSort_perm _ _

theorem sortedIndexedTags_length {K : Type} [LinearOrder K] (tags : List K) :
    (sortedIndexedTags tags).length = tags.length := by
  rw [(sortedIndexedTags_perm tags).length_eq, List.enum_length]

theorem sortedTags_perm {K : Type} [LinearOrder K] (tags : List K) :
    List.Perm (sortedTags tags) tags := by
  have h := (sortedIndexedTags_perm tags).map Prod.snd
  rwa [List.enum_map_snd] at h

/-- C1: for every tag list without duplicate order keys (every caller
ordering of a tag set) and every aligned value tuple,
`unreorder_by_tag (reorder_by_tag v) = v`. -/
theorem unreorder_reorder_roundtrip {K : Type} [LinearOrder K] {α : Type} (tags : List K)
    (values : List α) (d : α) (hnd : tags.Nodup) (hlen : values.length = tags.length) :
    unreorder_by_tag tags (reorder_by_tag tags values d) d = values := by
  have hperm := sortedIndexedTags_perm tags
  have hslen := sortedIndexedTags_length tags
  have hrlen : (reorder_by_tag tags values d).length = tags.length := by
    simp [reorder_by_tag, tagPermutation, hslen]
  apply List.ext_getElem (by simp [unreorder_by_tag, hlen])
  intro i hi hi'
  have hit : i < tags.length := by simpa [unreorder_by_tag] using hi
  simp only [unreorder_by_tag, List.getElem_map]
  set j := (sortedTags tags).indexOf tags[i] with hjdef
  have hmem : tags[i] ∈ sortedTags tags := (sortedTags_perm tags).mem_iff.mpr
    (List.getElem_mem hit)
  have hj : j < (sortedTags tags).length := List.indexOf_lt_length.mpr hmem
  have hjs : j < (sortedIndexedTags tags).length := by simpa [sortedTags] using hj
  have hjlen : j < tags.length := by rwa [hslen] at hjs
  have hsj : (sortedTags tags)[j] = tags[i] := List.getElem_indexOf hj
  have hpair2 : ((sortedIndexedTags tags)[j]).2 = tags[i] := by
    rw [← hsj]
    simp [sortedTags]
  have hpmem : (sortedIndexedTags tags)[j] ∈ tags.enum :=
    hperm.mem_iff.mp (List.getElem_mem hjs)
  have hk := List.mem_enum_iff_getElem?.mp hpmem
  obtain ⟨hklt, hkget⟩ := List.getElem?_eq_some.mp hk
  have hki : ((sortedIndexedTags tags)[j]).1 = i := by
    apply (List.Nodup.getElem_inj_iff hnd).mp
    show tags[((sortedIndexedTags tags)[j]).1] = tags[i]
    rw [hkget, hpair2]
  rw [List.getD_eq_getElem _ _ (show j < (reorder_by_tag tags values d).length by
    rwa [hrlen])]
  simp only [reorder_by_tag, tagPermutation, List.getElem_map]
  calc values.getD ((sortedIndexedTags tags)[j]).1 d
      = values.getD i d := by rw [hki]
    _ = values[i] := List.getD_eq_getElem _ _ (by omega)

/-! ## Claim theorems: canonicalization invariance (C2)

A submission of a composite key is a list of `(tag, value)` pairs in
caller order; two caller orderings of the same tag set with the same
tag→value assignment are two permuted pair lists.  `canonEntries` is the
canonical arrangement the protocol induces on the pairs: the proof artery
is that it is a permutation of the submitted pairs, strictly sorted by
tag key, and therefore depends only on the set of pairs. -/

def canonEntries {K : Type} [LinearOrder K] {α : Type} (pairs : List (K × α)) (d : K × α) :
    List (K × α) :=
  (sortedIndexedTags (pairs.map Prod.fst)).map fun p => pairs.getD p.1 d

theorem enum_map_getD {K : Type} {α : Type} (pairs : List (K × α)) (d : K × α) :
    ((pairs.map Prod.fst).enum.map fun p => pairs.getD p.1 d) = pairs := by
  apply List.ext_getElem (by simp)
  intro i hi hi'
  rw [List.getElem_map, List.getElem_enum]
  show pairs.getD i d = pairs[i]
  exact List.getD_eq_getElem _ _ hi'

theorem mem_sortedIndexedTags {K : Type} [LinearOrder K] {tags : List K} {p : Nat × K}
    (hp : p ∈ sortedIndexedTags tags) : ∃ h : p.1 < tags.length, tags[p.1] = p.2 := by
  have h1 := (sortedIndexedTags_perm tags).mem_iff.mp hp
  have h2 := List.mem_enum_iff_getElem?.mp h1
  obtain ⟨hl, hg⟩ := List.getElem?_eq_some.mp h2
  exact ⟨hl, hg⟩

theorem getD_fst_of_mem {K : Type} [LinearOrder K] {α : Type} {pairs : List (K × α)}
    {d : K × α} {p : Nat × K} (hp : p ∈ sortedIndexedTags (pairs.map Prod.fst)) :
    (pairs.getD p.1 d).1 = p.2 := by
  obtain ⟨hl, hg⟩ := mem_sortedIndexedTags hp
  have hl' : p.1 < pairs.length := by simpa using hl
  rw [List.getD_eq_getElem _ _ hl']
  rwa [List.getElem_map] at hg

theorem canonEntries_perm {K : Type} [LinearOrder K] {α : Type} (pairs : List (K × α))
    (d : K × α) : List.Perm (canonEntries pairs d) pairs := by
  have h := (sortedIndexedTags_perm (pairs.map Prod.fst)).map fun p => pairs.getD p.1 d
  rwa [enum_map_getD] at h

theorem canonEntries_map_fst {K : Type} [LinearOrder K] {α : Type} (pairs : List (K × α))
    (d : K × α) : (canonEntries pairs d).map Prod.fst = sortedTags (pairs.map Prod.fst) := by
  simp only [canonEntries, sortedTags, List.map_map]
  apply List.map_congr_left
  intro p hp
  exact getD_fst_of_mem hp

theorem canonEntries_map_snd {K : Type} [LinearOrder K] {α : Type} (pairs : List (K × α))
    (d : K × α) :
    (canonEntries pairs d).map Prod.snd =
      reorder_by_tag (pairs.map Prod.fst) (pairs.map Prod.snd) d.2 := by
  simp only [canonEntries, reorder_by_tag, tagPermutation, List.map_map]
  apply List.map_congr_left
  intro p hp
  obtain ⟨hl, hg⟩ := mem_sortedIndexedTags hp
  have hl' : p.1 < pairs.length := by simpa using hl
  show (pairs.getD p.1 d).2 = (pairs.map Prod.snd).getD p.1 d.2
  rw [List.getD_eq_getElem _ _ hl', List.getD_eq_getElem _ _ (by simpa using hl'),
    List.getElem_map]

theorem canonEntries_pairwise {K : Type} [LinearOrder K] {α : Type} (pairs : List (K × α))
    (d : K × α) (hnd : (pairs.map Prod.fst).Nodup) :
    (canonEntries pairs d).Pairwise fun x y => x.1 < y.1 := by
  have hsorted : (sortedIndexedTags (pairs.map Prod.fst)).Pairwise
      fun p q => tagLe p q = true := by
    apply List.sorted_mergeSort
    · intro a b c hab hbc
      simp only [tagLe, decide_eq_true_eq] at *
      exact le_trans hab hbc
    · intro a b
      simp only [tagLe]
      rcases le_total a.2 b.2 with h | h <;> simp [h]
  have hne : (sortedIndexedTags (pairs.map Prod.fst)).Pairwise fun p q => p.1 ≠ q.1 := by
    have hnodup : ((sortedIndexedTags (pairs.map Prod.fst)).map Prod.fst).Nodup := by
      rw [List.Perm.nodup_iff ((sortedIndexedTags_perm (pairs.map Prod.fst)).map Prod.fst)]
      exact List.nodup_enum_map_fst _
    exact List.pairwise_map.mp hnodup
  simp only [canonEntries]
  rw [List.pairwise_map]
  refine List.Pairwise.imp_of_mem ?_ (hsorted.and hne)
  intro p q hp hq hpq
  obtain ⟨hle, hpqne⟩ := hpq
  obtain ⟨hpl, hpg⟩ := mem_sortedIndexedTags hp
  obtain ⟨hql, hqg⟩ := mem_sortedIndexedTags hq
  have hple : p.2 ≤ q.2 := by simpa [tagLe] using hle
  have hlt : p.2 < q.2 := lt_of_le_of_ne hple (by
    intro heq
    apply hpqne
    apply (List.Nodup.getElem_inj_iff hnd).mp
    show (pairs.map Prod.fst)[p.1] = (pairs.map Prod.fst)[q.1]
    rw [hpg, hqg, heq])
  rw [getD_fst_of_mem hp, getD_fst_of_mem hq]
  exact hlt

theorem eq_of_perm_of_pairwise_fst_lt {K : Type} [LinearOrder K] {α : Type}
    (l1 l2 : List (K × α)) (hp : List.Perm l1 l2)
    (h1 : l1.Pairwise fun x y => x.1 < y.1) (h2 : l2.Pairwise fun x y => x.1 < y.1) :
    l1 = l2 := by
  haveI : IsAntisymm (K × α) (fun x y => x.1 < y.1 ∨ x = y) := ⟨fun a b hab hba => by
    rcases hab with hab | hab
    · rcases hba with hba | hba
      · exact absurd (lt_trans hab hba) (lt_irrefl _)
      · exact hba.symm
    · exact hab⟩
  have hs1 : l1.Pairwise fun x y => x.1 < y.1 ∨ x = y := h1.imp fun h => Or.inl h
  have hs2 : l2.Pairwise fun x y => x.1 < y.1 ∨ x = y := h2.imp fun h => Or.inl h
  exact List.eq_of_perm_of_sorted hp hs1 hs2

/-- C2 counterexample: the derived permutations for two caller orderings
of the same tag set are *not* identical — the permutation maps caller
positions, which the two orderings number differently.  For the tag set
`{0, 1}` ordered `[0, 1]` versus `[1, 0]`, the canonical tag order is the
same but the permutations differ. -/
theorem tag_permutations_differ_across_orderings :
    tagPermutation ([0, 1] : List Nat) ≠ tagPermutation [1, 0] ∧
    sortedTags ([0, 1] : List Nat) = sortedTags [1, 0] := by
  constructor <;>
    simp [tagPermutation, sortedTags, sortedIndexedTags, List.enum, List.enumFrom,
      List.mergeSort, tagLe]

/-- C2 (amended): for any two caller orderings of the same unordered tag
set — two permuted lists of `(tag, value)` pairs over duplicate-free tag
keys — the canonical (sorted) tag order is identical, and the same
tag→value assignment submitted under either caller ordering reorders to
the same canonical value tuple (hence lands in the same index entry).
The permutations themselves differ with the caller ordering; only the
induced assignment of tags to canonical slots is order-independent. -/
theorem canonicalization_invariance {K : Type} [LinearOrder K] {α : Type}
    (pairs1 pairs2 : List (K × α)) (d : α) (hperm : List.Perm pairs1 pairs2)
    (hnd : (pairs1.map Prod.fst).Nodup) :
    sortedTags (pairs1.map Prod.fst) = sortedTags (pairs2.map Prod.fst) ∧
    reorder_by_tag (pairs1.map Prod.fst) (pairs1.map Prod.snd) d =
      reorder_by_tag (pairs2.map Prod.fst) (pairs2.map Prod.snd) d := by
  rcases hd : pairs1 with _ | ⟨p0, rest⟩
  · rw [hd] at hperm
    rw [List.perm_nil.mp hperm.symm] at *
    exact ⟨rfl, rfl⟩
  rw [← hd] at *
  have hnd2 : (pairs2.map Prod.fst).Nodup := ((hperm.map Prod.fst).nodup_iff).mp hnd
  have hM : canonEntries pairs1 (p0.1, d) = canonEntries pairs2 (p0.1, d) :=
    eq_of_perm_of_pairwise_fst_lt _ _
      (((canonEntries_perm pairs1 _).trans hperm).trans (canonEntries_perm pairs2 _).symm)
      (canonEntries_pairwise pairs1 _ hnd) (canonEntries_pairwise pairs2 _ hnd2)
  constructor
  · rw [← canonEntries_map_fst pairs1 (p0.1, d), ← canonEntries_map_fst pairs2 (p0.1, d), hM]
  · have h1 := canonEntries_map_snd pairs1 (p0.1, d)
    have h2 := canonEntries_map_snd pairs2 (p0.1, d)
    rw [← h1, ← h2, hM]

/-- Witness for C2 (amended): the pair lists `[(2, 10), (0, 20)]` and
`[(0, 20), (2, 10)]` are the two caller orderings of one tag→value
assignment over the tag set `{0, 2}`. -/
theorem canonicalization_invariance_witness :
    List.Perm ([(2, 10), (0, 20)] : List (Nat × Nat)) [(0, 20), (2, 10)] ∧
    (([(2, 10), (0, 20)] : List (Nat × Nat)).map Prod.fst).Nodup ∧
    (sortedTags (([(2, 10), (0, 20)] : List (Nat × Nat)).map Prod.fst) =
        sortedTags (([(0, 20), (2, 10)] : List (Nat × Nat)).map Prod.fst) ∧
      reorder_by_tag (([(2, 10), (0, 20)] : List (Nat × Nat)).map Prod.fst)
          (([(2, 10), (0, 20)] : List (Nat × Nat)).map Prod.snd) 0 =
        reorder_by_tag (([(0, 20), (2, 10)] : List (Nat × Nat)).map Prod.fst)
          (([(0, 20), (2, 10)] : List (Nat × Nat)).map Prod.snd) 0) :=
  ⟨by decide, by decide,
    canonicalization_invariance [(2, 10), (0, 20)] [(0, 20), (2, 10)] 0 (by decide) (by decide)⟩

/-- Witness for C1: the caller ordering `[2, 0, 1]` of the tag set
`{0, 1, 2}` with the aligned value tuple `[123, 77, 3]`. -/
theorem unreorder_reorder_roundtrip_witness :
    ([2, 0, 1] : List Nat).Nodup ∧
    ([123, 77, 3] : List Nat).length = ([2, 0, 1] : List Nat).length ∧
    unreorder_by_tag ([2, 0, 1] : List Nat) (reorder_by_tag [2, 0, 1] [123, 77, 3] 0) 0 =
      [123, 77, 3] :=
  ⟨by decide, rfl, unreorder_reorder_roundtrip [2, 0, 1] [123, 77, 3] 0 (by decide) rfl⟩

end IxaIndexing
